import Mathlib

/-!
# Verification of the line patcher in `scripts/fix_file.py`

The script reads the whole target file, splits it on `'\n'`, runs one
forward scan over the resulting line list with two repair rules, rejoins
with `'\n'` and writes the result back, printing `"Fixed file"`.

Embedding choices:
* a line is a `List Char`; the file content is a `String`, and
  `content.split('\n')` is `content.data.splitOn '\n'`;
* `str.strip()` is `pyStrip` (ASCII whitespace; the markers involved are
  all ASCII);
* the Python `while i < len(lines)` loop only ever inspects `lines[i:]`,
  and every branch resumes at a strictly larger index, so it is embedded
  as the suffix recursion `fixGo`; the branch `i = j - 1` (cursor jump to
  the opening brace found by lookahead) becomes recursion on
  `rest.dropWhile isBC`, the suffix starting at that brace;
* `fixFuel` is the same scan with an explicit iteration budget, used to
  state termination and to evaluate the scan inside the kernel.

Literal braces inside string literals are written with the `\x7b` / `\x7d`
escapes; e.g. `"  \x7d,"` is the three-character-and-comma line `  },`.
-/

/-- The ASCII whitespace characters removed by Python `str.strip()`. -/
def isPySpace (c : Char) : Bool :=
  c = ' ' || c = '\t' || c = '\n' || c = '\r' || c = '\x0b' || c = '\x0c'

/-- Python `l.strip()`: remove leading and trailing whitespace. -/
def pyStrip (l : List Char) : List Char :=
  ((l.dropWhile isPySpace).reverse.dropWhile isPySpace).reverse

/-- The stripped closing marker `},` compared against `line.strip()`. -/
def closeBrace : List Char := "\x7d,".data

/-- Four spaces, as tested by `line.startswith('    ')`. -/
def indent4 : List Char := "    ".data

/-- The exact inner closing marker line `    },` (4-space indent). -/
def innerClose : List Char := "    \x7d,".data

/-- The exact outer closing marker line `  },` (2-space indent). -/
def outerClose : List Char := "  \x7d,".data

/-- The exact outer block opening line `  {` (2-space indent). -/
def arrayOpen : List Char := "  \x7b".data

/-- The line comment marker `//`. -/
def commentMark : List Char := "//".data

/-- `stripped == '' or stripped.startswith('//')`: the test used by both
lookahead loops to skip blank and comment-only lines. -/
def isBC (l : List Char) : Bool :=
  (pyStrip l).isEmpty || commentMark.isPrefixOf (pyStrip l)

/-- `line.strip() == '},' and line.startswith('    ')`: the rule 1 trigger. -/
def trigger1 (l : List Char) : Bool :=
  pyStrip l == closeBrace && indent4.isPrefixOf l

lemma length_dropWhile_le {α : Type} (p : α → Bool) (l : List α) :
    (l.dropWhile p).length ≤ l.length := by
  induction l with
  | nil => simp
  | cons a l ih =>
    rw [List.dropWhile_cons]
    split
    · exact Nat.le_trans ih (Nat.le_succ _)
    · exact Nat.le_refl _

/-- The main scan loop of `fix_file.py` (lines 10–75).  At index `i` the
Python code inspects only `lines[i:]`, so the loop is a recursion on the
remaining suffix:

* rule 1 branch (`line.strip() == '},' and line.startswith('    ')`):
  the lookahead walks `j` past blank/comment lines (collected in
  `buffer = rest.takeWhile isBC`) and stops at the first other line, the
  head of `rest.dropWhile isBC`.  If that line is `  {`
  (`found_array_start`), the line, the inserted `  },` (unless `buffer`
  already holds one — the `has_close` guard), and the buffer are emitted
  and the scan resumes at the brace (`i = j - 1` plus the `i += 1`);
  otherwise only the line is emitted and the scan resumes at `i + 1`;
* rule 2 branch (`line == '  },'`): kept when immediately followed by
  `  {`; when followed by a blank line, a second lookahead skips
  blank/comment lines, and the marker is dropped when that lookahead
  stops at `  {`; kept in every other case;
* every other line is passed through. -/
def fixGo : List (List Char) → List (List Char)
  | [] => []
  | line :: rest =>
    if trigger1 line = true then
      if (rest.dropWhile isBC).head? = some arrayOpen then
        if (rest.takeWhile isBC).any (fun l => l == outerClose) = true then
          line :: (rest.takeWhile isBC ++ fixGo (rest.dropWhile isBC))
        else
          line :: outerClose :: (rest.takeWhile isBC ++ fixGo (rest.dropWhile isBC))
      else
        line :: fixGo rest
    else if line = outerClose then
      if rest.head? = some arrayOpen then
        line :: fixGo rest
      else if rest.head?.map pyStrip = some [] then
        if (rest.dropWhile isBC).head? = some arrayOpen then
          fixGo rest
        else
          line :: fixGo rest
      else
        line :: fixGo rest
    else
      line :: fixGo rest
termination_by ls => ls.length
decreasing_by
  all_goals simp only [List.length_cons]
  · exact Nat.lt_succ_of_le (length_dropWhile_le _ _)
  · exact Nat.lt_succ_of_le (length_dropWhile_le _ _)
  all_goals exact Nat.lt_succ_self _

/-- The same scan with an explicit iteration budget: `none` means the
budget was exhausted before the loop finished. -/
def fixFuel : Nat → List (List Char) → Option (List (List Char))
  | _, [] => some []
  | 0, _ :: _ => none
  | fuel + 1, line :: rest =>
    if trigger1 line = true then
      if (rest.dropWhile isBC).head? = some arrayOpen then
        if (rest.takeWhile isBC).any (fun l => l == outerClose) = true then
          (fixFuel fuel (rest.dropWhile isBC)).map
            (fun out => line :: (rest.takeWhile isBC ++ out))
        else
          (fixFuel fuel (rest.dropWhile isBC)).map
            (fun out => line :: outerClose :: (rest.takeWhile isBC ++ out))
      else
        (fixFuel fuel rest).map (fun out => line :: out)
    else if line = outerClose then
      if rest.head? = some arrayOpen then
        (fixFuel fuel rest).map (fun out => line :: out)
      else if rest.head?.map pyStrip = some [] then
        if (rest.dropWhile isBC).head? = some arrayOpen then
          fixFuel fuel rest
        else
          (fixFuel fuel rest).map (fun out => line :: out)
      else
        (fixFuel fuel rest).map (fun out => line :: out)
    else
      (fixFuel fuel rest).map (fun out => line :: out)

/-- `content.split('\n')` from line 6 of the script. -/
def pyLines (content : String) : List (List Char) :=
  content.data.splitOn '\n'

/-- The whole transformation: split on `'\n'`, run the scan, rejoin with
`'\n'.join` (lines 6 and 78). -/
def fixContent (content : String) : String :=
  String.mk (List.intercalate ['\n'] (fixGo (pyLines content)))

/-- Observable behaviour of one run on a given file content: the content
written back, and the message printed on stdout (line 80). -/
def runFix (content : String) : String × String :=
  (fixContent content, "Fixed file")

/-! ## Basic facts about the markers and branch equations for `fixGo` -/

lemma trigger1_eq_true_iff (l : List Char) :
    trigger1 l = true ↔ (pyStrip l = closeBrace ∧ indent4.isPrefixOf l = true) := by
  simp [trigger1]

lemma isBC_arrayOpen : isBC arrayOpen = false := by decide

lemma isBC_outerClose : isBC outerClose = false := by decide

lemma isBC_innerClose : isBC innerClose = false := by decide

lemma trigger1_outerClose : trigger1 outerClose = false := by decide

lemma trigger1_innerClose : trigger1 innerClose = true := by decide

lemma trigger1_ne_outerClose {l : List Char} (h : trigger1 l = true) :
    l ≠ outerClose := by
  intro he
  rw [he, trigger1_outerClose] at h
  cases h

lemma fixGo_nil : fixGo [] = [] := by rw [fixGo]

lemma fixGo_found_has (line : List Char) (rest : List (List Char))
    (h1 : trigger1 line = true)
    (h2 : (rest.dropWhile isBC).head? = some arrayOpen)
    (h3 : (rest.takeWhile isBC).any (fun l => l == outerClose) = true) :
    fixGo (line :: rest) =
      line :: (rest.takeWhile isBC ++ fixGo (rest.dropWhile isBC)) := by
  rw [fixGo]
  simp [h1, h2, h3]

lemma fixGo_found_ins (line : List Char) (rest : List (List Char))
    (h1 : trigger1 line = true)
    (h2 : (rest.dropWhile isBC).head? = some arrayOpen)
    (h3 : (rest.takeWhile isBC).any (fun l => l == outerClose) = false) :
    fixGo (line :: rest) =
      line :: outerClose :: (rest.takeWhile isBC ++ fixGo (rest.dropWhile isBC)) := by
  rw [fixGo]
  simp [h1, h2, h3]

lemma fixGo_trig_nofound (line : List Char) (rest : List (List Char))
    (h1 : trigger1 line = true)
    (h2 : (rest.dropWhile isBC).head? ≠ some arrayOpen) :
    fixGo (line :: rest) = line :: fixGo rest := by
  rw [fixGo]
  simp [h1, h2]

lemma fixGo_outer_keep_open (rest : List (List Char))
    (h : rest.head? = some arrayOpen) :
    fixGo (outerClose :: rest) = outerClose :: fixGo rest := by
  rw [fixGo]
  simp [trigger1_outerClose, h]

lemma fixGo_outer_drop (rest : List (List Char))
    (hb : rest.head?.map pyStrip = some [])
    (hf : (rest.dropWhile isBC).head? = some arrayOpen) :
    fixGo (outerClose :: rest) = fixGo rest := by
  have ho : rest.head? ≠ some arrayOpen := by
    intro he
    rw [he] at hb
    simp [Option.map] at hb
    exact absurd hb (by decide)
  rw [fixGo]
  simp [trigger1_outerClose, ho, hb, hf]

lemma fixGo_outer_keep_blank_nofound (rest : List (List Char))
    (hb : rest.head?.map pyStrip = some [])
    (hf : (rest.dropWhile isBC).head? ≠ some arrayOpen) :
    fixGo (outerClose :: rest) = outerClose :: fixGo rest := by
  have ho : rest.head? ≠ some arrayOpen := by
    intro he
    rw [he] at hb
    simp [Option.map] at hb
    exact absurd hb (by decide)
  rw [fixGo]
  simp [trigger1_outerClose, ho, hb, hf]

lemma fixGo_outer_keep_other (rest : List (List Char))
    (ho : rest.head? ≠ some arrayOpen)
    (hb : rest.head?.map pyStrip ≠ some []) :
    fixGo (outerClose :: rest) = outerClose :: fixGo rest := by
  rw [fixGo]
  simp [trigger1_outerClose, ho, hb]

lemma fixGo_pass (line : List Char) (rest : List (List Char))
    (h1 : trigger1 line = false) (h2 : line ≠ outerClose) :
    fixGo (line :: rest) = line :: fixGo rest := by
  rw [fixGo]
  simp [h1, h2]

/-! ## Fuel semantics: the fueled scan agrees with `fixGo` -/

lemma fixFuel_complete :
    ∀ (fuel : Nat) (ls : List (List Char)), ls.length ≤ fuel →
      fixFuel fuel ls = some (fixGo ls) := by
  intro fuel
  induction fuel with
  | zero =>
    intro ls h
    cases ls with
    | nil => rw [fixFuel, fixGo_nil]
    | cons line rest => simp at h
  | succ fuel ih =>
    intro ls h
    cases ls with
    | nil => rw [fixFuel, fixGo_nil]
    | cons line rest =>
      have hrest : rest.length ≤ fuel := by
        simp only [List.length_cons] at h
        omega
      have hdrop : (rest.dropWhile isBC).length ≤ fuel :=
        Nat.le_trans (length_dropWhile_le _ _) hrest
      rw [fixFuel, fixGo]
      by_cases h1 : trigger1 line = true
      · by_cases h2 : (rest.dropWhile isBC).head? = some arrayOpen
        · by_cases h3 : (rest.takeWhile isBC).any (fun l => l == outerClose) = true
          · simp [h1, h2, h3, ih _ hdrop]
          · simp [h1, h2, h3, ih _ hdrop]
        · simp [h1, h2, ih _ hrest]
      · by_cases h4 : line = outerClose
        · by_cases h5 : rest.head? = some arrayOpen
          · simp [h1, h4, h5, trigger1_outerClose, ih _ hrest]
          · by_cases h6 : rest.head?.map pyStrip = some []
            · by_cases h7 : (rest.dropWhile isBC).head? = some arrayOpen
              · simp [h1, h4, h5, h6, h7, trigger1_outerClose, ih _ hrest]
              · simp [h1, h4, h5, h6, h7, trigger1_outerClose, ih _ hrest]
            · simp [h1, h4, h5, h6, trigger1_outerClose, ih _ hrest]
        · simp [h1, h4, ih _ hrest]

/-- Evaluation bridge: a kernel-computed run of the fueled scan determines
the value of `fixGo`. -/
lemma fixGo_eval (ls out : List (List Char))
    (h : fixFuel ls.length ls = some out) : fixGo ls = out := by
  have h2 := fixFuel_complete ls.length ls (Nat.le_refl _)
  rw [h] at h2
  exact (Option.some.inj h2).symm

/-! ## Lookahead helpers: `takeWhile`/`dropWhile` over blank/comment runs -/

lemma dropWhile_append_of_head_not (pre : List (List Char)) (s : List Char)
    (suf : List (List Char)) (hs : isBC s = false) :
    (pre ++ s :: suf).dropWhile isBC = pre.dropWhile isBC ++ s :: suf := by
  rw [List.dropWhile_append]
  split
  · next hemp =>
    rw [List.isEmpty_iff] at hemp
    rw [hemp, List.dropWhile_cons, hs]
    simp
  · rfl

lemma dropWhile_bc_append (buf : List (List Char)) (s : List Char)
    (suf : List (List Char)) (hb : buf.all isBC = true) (hs : isBC s = false) :
    (buf ++ s :: suf).dropWhile isBC = s :: suf := by
  induction buf with
  | nil =>
    rw [List.nil_append, List.dropWhile_cons, hs]
    simp
  | cons a buf ih =>
    simp only [List.all_cons, Bool.and_eq_true] at hb
    rw [List.cons_append, List.dropWhile_cons, hb.1]
    exact ih hb.2

lemma takeWhile_bc_append (buf : List (List Char)) (s : List Char)
    (suf : List (List Char)) (hb : buf.all isBC = true) (hs : isBC s = false) :
    (buf ++ s :: suf).takeWhile isBC = buf := by
  induction buf with
  | nil =>
    rw [List.nil_append, List.takeWhile_cons, hs]
    simp
  | cons a buf ih =>
    simp only [List.all_cons, Bool.and_eq_true] at hb
    rw [List.cons_append, List.takeWhile_cons, hb.1]
    simp [ih hb.2]

lemma all_isBC_takeWhile (rest : List (List Char)) :
    (rest.takeWhile isBC).all isBC = true := by
  induction rest with
  | nil => simp
  | cons a rest ih =>
    rw [List.takeWhile_cons]
    split
    · next h => simp [h, ih]
    · simp

lemma bc_run_has_no_marker (buf : List (List Char)) (hb : buf.all isBC = true) :
    buf.any (fun l => l == outerClose) = false := by
  induction buf with
  | nil => simp
  | cons a buf ih =>
    simp only [List.all_cons, Bool.and_eq_true] at hb
    simp only [List.any_cons, Bool.or_eq_false_iff]
    refine ⟨?_, ih hb.2⟩
    have : a ≠ outerClose := by
      intro he
      rw [he, isBC_outerClose] at hb
      exact absurd hb.1 (by decide)
    simp [this]

/-! ## Reachability: the scan reaches every non-blank/comment suffix

Both lookahead loops skip only blank/comment lines, and the cursor jump
`i = j - 1` lands on the opening brace itself, so a suffix whose head is
not blank/comment is always reached by the scan and processed from its
head. -/

lemma fixGo_outer_cases (rest : List (List Char)) :
    fixGo (outerClose :: rest) = outerClose :: fixGo rest ∨
    fixGo (outerClose :: rest) = fixGo rest := by
  by_cases h5 : rest.head? = some arrayOpen
  · left
    exact fixGo_outer_keep_open rest h5
  · by_cases h6 : rest.head?.map pyStrip = some []
    · by_cases h7 : (rest.dropWhile isBC).head? = some arrayOpen
      · right
        exact fixGo_outer_drop rest h6 h7
      · left
        exact fixGo_outer_keep_blank_nofound rest h6 h7
    · left
      exact fixGo_outer_keep_other rest h5 h6

lemma fixGo_cons_shape (line : List Char) (rest : List (List Char)) :
    (∃ out, fixGo (line :: rest) = out ++ fixGo rest) ∨
    ((rest.dropWhile isBC).head? = some arrayOpen ∧
      ∃ out, fixGo (line :: rest) = out ++ fixGo (rest.dropWhile isBC)) := by
  by_cases h1 : trigger1 line = true
  · by_cases h2 : (rest.dropWhile isBC).head? = some arrayOpen
    · right
      refine ⟨h2, ?_⟩
      by_cases h3 : (rest.takeWhile isBC).any (fun l => l == outerClose) = true
      · exact ⟨line :: rest.takeWhile isBC,
          by rw [fixGo_found_has line rest h1 h2 h3]; simp⟩
      · exact ⟨line :: outerClose :: rest.takeWhile isBC,
          by rw [fixGo_found_ins line rest h1 h2 (by rwa [Bool.not_eq_true] at h3)]; simp⟩
    · left
      exact ⟨[line], by rw [fixGo_trig_nofound line rest h1 h2]; simp⟩
  · by_cases h4 : line = outerClose
    · subst h4
      left
      rcases fixGo_outer_cases rest with h | h
      · exact ⟨[outerClose], by rw [h]; simp⟩
      · exact ⟨[], by rw [h]; simp⟩
    · left
      exact ⟨[line], by rw [fixGo_pass line rest (by simpa using h1) h4]; simp⟩

lemma fixGo_reaches_aux :
    ∀ (n : Nat) (pre : List (List Char)), pre.length ≤ n →
      ∀ (s : List Char) (suf : List (List Char)), isBC s = false →
        ∃ out, fixGo (pre ++ s :: suf) = out ++ fixGo (s :: suf) := by
  intro n
  induction n with
  | zero =>
    intro pre hlen s suf _
    have hpre : pre = [] := List.length_eq_zero.mp (Nat.le_zero.mp hlen)
    subst hpre
    exact ⟨[], by simp⟩
  | succ n ih =>
    intro pre hlen s suf hs
    cases pre with
    | nil => exact ⟨[], by simp⟩
    | cons line pre' =>
      have hlen' : pre'.length ≤ n := by
        simp only [List.length_cons] at hlen
        omega
      have hdw : (pre' ++ s :: suf).dropWhile isBC = pre'.dropWhile isBC ++ s :: suf :=
        dropWhile_append_of_head_not pre' s suf hs
      rcases fixGo_cons_shape line (pre' ++ s :: suf) with ⟨out1, h1⟩ | ⟨_, out1, h1⟩
      · obtain ⟨out2, h2⟩ := ih pre' hlen' s suf hs
        exact ⟨out1 ++ out2, by rw [List.cons_append, h1, h2, List.append_assoc]⟩
      · obtain ⟨out2, h2⟩ :=
          ih (pre'.dropWhile isBC) (Nat.le_trans (length_dropWhile_le _ _) hlen') s suf hs
        rw [hdw] at h1
        exact ⟨out1 ++ out2, by rw [List.cons_append, h1, h2, List.append_assoc]⟩

/-- Any suffix whose head is not a blank/comment line is reached by the
scan: the output is some processed prefix followed by the scan of that
suffix. -/
lemma fixGo_reaches (pre : List (List Char)) (s : List Char)
    (suf : List (List Char)) (hs : isBC s = false) :
    ∃ out, fixGo (pre ++ s :: suf) = out ++ fixGo (s :: suf) :=
  fixGo_reaches_aux pre.length pre (Nat.le_refl _) s suf hs

/-! ## Local behaviour of the two rules at the line they trigger on -/

/-- Rule 1 at an inner close followed by a blank/comment run and `  {`:
the outer close is inserted right after the inner close, the run is
re-emitted, and the scan resumes at the opening brace. -/
lemma rule1_local_insert (buf rest₂ : List (List Char)) (hb : buf.all isBC = true) :
    fixGo (innerClose :: (buf ++ arrayOpen :: rest₂)) =
      innerClose :: outerClose :: (buf ++ fixGo (arrayOpen :: rest₂)) := by
  have hdw := dropWhile_bc_append buf arrayOpen rest₂ hb isBC_arrayOpen
  have htw := takeWhile_bc_append buf arrayOpen rest₂ hb isBC_arrayOpen
  rw [fixGo_found_ins innerClose _ trigger1_innerClose
      (by rw [hdw]; rfl)
      (by rw [htw]; exact bc_run_has_no_marker buf hb),
    htw, hdw]

/-- Rule 1 at an inner close whose blank/comment run ends at an existing
`  },`: no insertion, the scan resumes at the next line. -/
lemma rule1_local_noinsert (buf rest₂ : List (List Char)) (hb : buf.all isBC = true) :
    fixGo (innerClose :: (buf ++ outerClose :: rest₂)) =
      innerClose :: fixGo (buf ++ outerClose :: rest₂) := by
  apply fixGo_trig_nofound _ _ trigger1_innerClose
  rw [dropWhile_bc_append buf outerClose rest₂ hb isBC_outerClose]
  simp only [List.head?_cons, ne_eq, Option.some.injEq]
  decide

/-! ## The claims -/

/-- C1 (code bug): the patcher is not idempotent.  On the file content
`"    },\n\n  {"` the first pass inserts the outer close after the inner
close; the second pass hits the inserted `  },` with the insertion point
already behind the cursor, rule 2 drops it again (despite the comment
`we'll add it in the right place` in the script), and the output
oscillates: `f (f x) = x ≠ f x`. -/
theorem fix_not_idempotent_on_blank_gap :
    fixContent (fixContent "    \x7d,\n\n  \x7b") = "    \x7d,\n\n  \x7b" ∧
    fixContent "    \x7d,\n\n  \x7b" ≠ "    \x7d,\n\n  \x7b" := by
  have h1 : fixGo ["    \x7d,".data, "".data, "  \x7b".data] =
      ["    \x7d,".data, "  \x7d,".data, "".data, "  \x7b".data] :=
    fixGo_eval _ _ (by decide)
  have h2 : fixGo ["    \x7d,".data, "  \x7d,".data, "".data, "  \x7b".data] =
      ["    \x7d,".data, "".data, "  \x7b".data] :=
    fixGo_eval _ _ (by decide)
  have e1 : fixContent "    \x7d,\n\n  \x7b" = "    \x7d,\n  \x7d,\n\n  \x7b" := by
    unfold fixContent pyLines
    rw [show ("    \x7d,\n\n  \x7b" : String).data.splitOn '\n' =
        ["    \x7d,".data, "".data, "  \x7b".data] from by decide, h1]
    decide
  have e2 : fixContent "    \x7d,\n  \x7d,\n\n  \x7b" = "    \x7d,\n\n  \x7b" := by
    unfold fixContent pyLines
    rw [show ("    \x7d,\n  \x7d,\n\n  \x7b" : String).data.splitOn '\n' =
        ["    \x7d,".data, "  \x7d,".data, "".data, "  \x7b".data] from by decide, h2]
    decide
  exact ⟨by rw [e1, e2], by rw [e1]; decide⟩

/-- C2 counterexample: on `["  },", "// c", "  {"]` the run after the
marker starts with a comment line, and the marker is *retained* (the
output equals the input), contradicting the claim that the drop also
happens for runs whose first line is a comment. -/
theorem rule2_marker_kept_after_comment_run :
    fixGo ["  \x7d,".data, "// c".data, "  \x7b".data] =
      ["  \x7d,".data, "// c".data, "  \x7b".data] :=
  fixGo_eval _ _ (by decide)

/-- C2 (amended): the `  },` marker is dropped only when the skipped run
is non-empty and its *first* line is blank (and the run leads to `  {`);
when the run starts with a comment line the marker is retained, and when
no `  {` is reached after the run the marker is retained. -/
theorem rule2_drop_requires_blank_first :
    (∀ (pre rest₂ : List (List Char)) (b : List Char),
        pyStrip b = [] →
        ((b :: rest₂).dropWhile isBC).head? = some arrayOpen →
        fixGo (outerClose :: b :: rest₂) = fixGo (b :: rest₂) ∧
        ∃ out, fixGo (pre ++ outerClose :: b :: rest₂) = out ++ fixGo (b :: rest₂))
    ∧ (∀ (rest₂ : List (List Char)) (c : List Char),
        commentMark.isPrefixOf (pyStrip c) = true →
        fixGo (outerClose :: c :: rest₂) = outerClose :: fixGo (c :: rest₂))
    ∧ (∀ rest : List (List Char),
        (rest.dropWhile isBC).head? ≠ some arrayOpen →
        fixGo (outerClose :: rest) = outerClose :: fixGo rest) := by
  refine ⟨?_, ?_, ?_⟩
  · intro pre rest₂ b hb hf
    have hdropEq : fixGo (outerClose :: b :: rest₂) = fixGo (b :: rest₂) :=
      fixGo_outer_drop _ (by simp [hb]) hf
    refine ⟨hdropEq, ?_⟩
    obtain ⟨out, hout⟩ := fixGo_reaches pre outerClose (b :: rest₂) isBC_outerClose
    exact ⟨out, by rw [hout, hdropEq]⟩
  · intro rest₂ c hc
    have hc0 : pyStrip c ≠ [] := by
      intro h
      rw [h] at hc
      exact absurd hc (by decide)
    have hne : c ≠ arrayOpen := by
      intro h
      rw [h] at hc
      exact absurd hc (by decide)
    apply fixGo_outer_keep_other
    · simp [hne]
    · simp [hc0]
  · intro rest hf
    cases rest with
    | nil => exact fixGo_outer_keep_other [] (by simp) (by simp)
    | cons b rest₂ =>
      have hbn : b ≠ arrayOpen := by
        intro h
        subst h
        apply hf
        rw [List.dropWhile_cons]
        simp [isBC_arrayOpen]
      by_cases hb : pyStrip b = []
      · exact fixGo_outer_keep_blank_nofound _ (by simp [hb]) hf
      · exact fixGo_outer_keep_other _ (by simp [hbn]) (by simp [hb])

/-- Witness for C2 (amended) at concrete inputs: a blank-first run before
`  {` drops the marker (also below an arbitrary prefix line `x`), a
comment-first run keeps it, and a run that reaches no `  {` keeps it. -/
theorem rule2_drop_requires_blank_first_witness :
    (fixGo (outerClose :: "".data :: ["  \x7b".data]) =
        fixGo ("".data :: ["  \x7b".data]) ∧
      ∃ out, fixGo (["x".data] ++ outerClose :: "".data :: ["  \x7b".data]) =
        out ++ fixGo ("".data :: ["  \x7b".data])) ∧
    fixGo (outerClose :: "// c".data :: []) = outerClose :: fixGo ("// c".data :: []) ∧
    fixGo (outerClose :: ["x".data]) = outerClose :: fixGo ["x".data] :=
  ⟨rule2_drop_requires_blank_first.1 ["x".data] ["  \x7b".data] "".data
      (by decide) (by decide),
    rule2_drop_requires_blank_first.2.1 [] "// c".data (by decide),
    rule2_drop_requires_blank_first.2.2 ["x".data] (by decide)⟩

/-- C3: for any input containing a `    },` line followed by a run of
blank/comment lines and then `  {`, the output has `  },` inserted
directly after the `    },` line, then the run unchanged, then the scan
of the suffix starting at the `  {` line (the cursor resumes there); and
the spec's example four-line input produces exactly the five-line output. -/
theorem rule1_inserts_outer_close :
    (∀ (pre buf rest₂ : List (List Char)), buf.all isBC = true →
      ∃ out, fixGo (pre ++ innerClose :: (buf ++ arrayOpen :: rest₂)) =
        out ++ innerClose :: outerClose :: (buf ++ fixGo (arrayOpen :: rest₂)))
    ∧ fixGo ["    \x7d,".data, "".data, "// note".data, "  \x7b".data] =
        ["    \x7d,".data, "  \x7d,".data, "".data, "// note".data, "  \x7b".data] := by
  constructor
  · intro pre buf rest₂ hb
    obtain ⟨out, hout⟩ :=
      fixGo_reaches pre innerClose (buf ++ arrayOpen :: rest₂) isBC_innerClose
    exact ⟨out, by rw [hout, rule1_local_insert buf rest₂ hb]⟩
  · exact fixGo_eval _ _ (by decide)

/-- Witness for C3 at a concrete input: prefix `x`, run `["", "// note"]`. -/
theorem rule1_inserts_outer_close_witness :
    ∃ out, fixGo (["x".data] ++ innerClose :: (["".data, "// note".data] ++ arrayOpen :: [])) =
      out ++ innerClose :: outerClose :: (["".data, "// note".data] ++ fixGo (arrayOpen :: [])) :=
  rule1_inserts_outer_close.1 ["x".data] ["".data, "// note".data] [] (by decide)

/-- C4 counterexample: the line `      },` (six leading spaces, not the
exact string `    },`) also enters the insertion behaviour — the claimed
"exactly `    },`" trigger condition is wrong. -/
theorem rule1_triggers_on_deeper_indent :
    fixGo ["      \x7d,".data, "  \x7b".data] =
      ["      \x7d,".data, "  \x7d,".data, "  \x7b".data] ∧
    "      \x7d,".data ≠ innerClose :=
  ⟨fixGo_eval _ _ (by decide), by decide⟩

/-- C4 (amended): the insertion behaviour is entered if and only if the
current line strips to `},` *and* starts with four spaces — so deeper
indentation and trailing whitespace also trigger it.  Characterised
observationally: in the two-line context `[l, "  {"]` the behaviour is
entered exactly when the output is `[l, "  },", "  {"]`. -/
theorem rule1_trigger_characterization :
    ∀ l : List Char,
      (pyStrip l = closeBrace ∧ indent4.isPrefixOf l = true) ↔
        fixGo [l, arrayOpen] = [l, outerClose, arrayOpen] := by
  intro l
  have hfixOpen : fixGo [arrayOpen] = [arrayOpen] := by
    rw [fixGo_pass arrayOpen [] (by decide) (by decide), fixGo_nil]
  constructor
  · intro hl
    have h1 : trigger1 l = true := (trigger1_eq_true_iff l).mpr hl
    rw [fixGo_found_ins l [arrayOpen] h1 (by decide) (by decide),
      show List.takeWhile isBC [arrayOpen] = [] from by decide,
      show List.dropWhile isBC [arrayOpen] = [arrayOpen] from by decide,
      hfixOpen]
    rfl
  · intro hfix
    by_contra hneg
    have h1 : trigger1 l = false := by
      have hn : ¬trigger1 l = true := fun h => hneg ((trigger1_eq_true_iff l).mp h)
      rwa [Bool.not_eq_true] at hn
    by_cases h4 : l = outerClose
    · subst h4
      rw [fixGo_outer_keep_open [arrayOpen] rfl, hfixOpen] at hfix
      exact absurd hfix (by decide)
    · rw [fixGo_pass l [arrayOpen] h1 h4, hfixOpen] at hfix
      have hlen := congrArg List.length hfix
      simp at hlen

/-- Witness for C4 (amended): the exact marker `    },` satisfies both
sides of the characterisation. -/
theorem rule1_trigger_characterization_witness :
    fixGo [innerClose, arrayOpen] = [innerClose, outerClose, arrayOpen] :=
  (rule1_trigger_characterization innerClose).mp ⟨by decide, by decide⟩

/-- C5 counterexample: rule 2 *removes* an input line — on
`["  },", "", "  {"]` the `  },` line of the input does not appear in the
output, contradicting "no original line is removed". -/
theorem drop_branch_removes_input_line :
    fixGo [outerClose, "".data, arrayOpen] = ["".data, arrayOpen] ∧
    outerClose ∈ [outerClose, "".data, arrayOpen] ∧
    outerClose ∉ ["".data, arrayOpen] :=
  ⟨fixGo_eval _ _ (by decide), by decide, by decide⟩

/-- A line is kept by this filter exactly when it is not the outer
closing marker `  },` — the only kind of line the scan ever inserts
(rule 1) or removes (rule 2). -/
def notOuterClose (l : List Char) : Bool := !(l == outerClose)

lemma notOuterClose_marker : notOuterClose outerClose = false := by decide

/-- C5 (amended): the output differs from the input only by inserted and
removed `  },` marker lines; every other input line appears in the output
unchanged and in order (rule 2 can remove `  },` lines, so the original
claim that *no* line is ever removed is too strong). -/
theorem fix_preserves_non_marker_lines :
    ∀ ls : List (List Char),
      (fixGo ls).filter notOuterClose = ls.filter notOuterClose := by
  intro ls
  induction ls using fixGo.induct with
  | case1 => rw [fixGo_nil]
  | case2 line rest h1 h2 h3 ih =>
    rw [fixGo_found_has line rest h1 h2 h3]
    conv_rhs => rw [← List.takeWhile_append_dropWhile (p := isBC) (l := rest)]
    simp only [List.filter_cons, List.filter_append, ih]
  | case3 line rest h1 h2 h3 ih =>
    rw [fixGo_found_ins line rest h1 h2 (by rwa [Bool.not_eq_true] at h3)]
    conv_rhs => rw [← List.takeWhile_append_dropWhile (p := isBC) (l := rest)]
    simp only [List.filter_cons, List.filter_append, ih, notOuterClose_marker,
      Bool.false_eq_true, if_false]
  | case4 line rest h1 h2 ih =>
    rw [fixGo_trig_nofound line rest h1 h2]
    simp only [List.filter_cons, ih]
  | case5 rest h5 _ ih =>
    rw [fixGo_outer_keep_open rest h5]
    simp only [List.filter_cons, ih]
  | case6 rest h5 h6 h7 _ ih =>
    rw [fixGo_outer_drop rest h6 h7]
    simp only [List.filter_cons, ih, notOuterClose_marker, Bool.false_eq_true,
      if_false]
  | case7 rest h5 h6 h7 _ ih =>
    rw [fixGo_outer_keep_blank_nofound rest h6 h7]
    simp only [List.filter_cons, ih]
  | case8 rest h5 h6 _ ih =>
    rw [fixGo_outer_keep_other rest h5 h6]
    simp only [List.filter_cons, ih]
  | case9 line rest h1 h4 ih =>
    rw [fixGo_pass line rest (by rwa [Bool.not_eq_true] at h1) h4]
    simp only [List.filter_cons, ih]

/-- C6: when the blank/comment run after an inner close `    },` ends at
an existing outer close `  },` (before any `  {`), rule 1 inserts
nothing: the inner close is emitted alone and the scan continues at the
next line; likewise below any prefix. -/
theorem rule1_no_insert_when_close_already_found :
    ∀ (pre buf rest₂ : List (List Char)), buf.all isBC = true →
      fixGo (innerClose :: (buf ++ outerClose :: rest₂)) =
        innerClose :: fixGo (buf ++ outerClose :: rest₂) ∧
      ∃ out, fixGo (pre ++ innerClose :: (buf ++ outerClose :: rest₂)) =
        out ++ innerClose :: fixGo (buf ++ outerClose :: rest₂) := by
  intro pre buf rest₂ hb
  have hloc := rule1_local_noinsert buf rest₂ hb
  refine ⟨hloc, ?_⟩
  obtain ⟨out, hout⟩ :=
    fixGo_reaches pre innerClose (buf ++ outerClose :: rest₂) isBC_innerClose
  exact ⟨out, by rw [hout, hloc]⟩

/-- Witness for C6 at a concrete input: run `[""]` already followed by
`  },`. -/
theorem rule1_no_insert_witness :
    fixGo (innerClose :: (["".data] ++ outerClose :: [])) =
      innerClose :: fixGo (["".data] ++ outerClose :: []) ∧
    ∃ out, fixGo (["x".data] ++ innerClose :: (["".data] ++ outerClose :: [])) =
      out ++ innerClose :: fixGo (["".data] ++ outerClose :: []) :=
  rule1_no_insert_when_close_already_found ["x".data] ["".data] [] (by decide)

lemma fixGo_id_of_no_trigger :
    ∀ ls : List (List Char),
      (∀ l ∈ ls, trigger1 l = false ∧ l ≠ outerClose) → fixGo ls = ls := by
  intro ls
  induction ls with
  | nil => intro _; exact fixGo_nil
  | cons line rest ih =>
    intro h
    have hl := h line (List.mem_cons_self _ _)
    rw [fixGo_pass line rest hl.1 hl.2,
      ih (fun l hm => h l (List.mem_cons_of_mem _ hm))]

/-- C7: when no line of the input triggers either rule — no line both
strips to `},` and starts with four spaces, and no line equals `  },` —
every line passes through unchanged and the written content is
character-for-character the input content. -/
theorem no_trigger_passthrough :
    ∀ content : String,
      (∀ l ∈ pyLines content,
        ¬(pyStrip l = closeBrace ∧ indent4.isPrefixOf l = true) ∧ l ≠ outerClose) →
      fixGo (pyLines content) = pyLines content ∧ fixContent content = content := by
  intro content h
  have hlines : fixGo (pyLines content) = pyLines content := by
    apply fixGo_id_of_no_trigger
    intro l hm
    refine ⟨?_, (h l hm).2⟩
    have hn : ¬trigger1 l = true := fun ht => (h l hm).1 ((trigger1_eq_true_iff l).mp ht)
    rwa [Bool.not_eq_true] at hn
  refine ⟨hlines, ?_⟩
  unfold fixContent
  rw [hlines]
  unfold pyLines
  rw [List.intercalate_splitOn]

/-- Witness for C7: a two-line content with no marker lines. -/
theorem no_trigger_passthrough_witness :
    fixGo (pyLines "a\nb") = pyLines "a\nb" ∧ fixContent "a\nb" = "a\nb" :=
  no_trigger_passthrough "a\nb" (by decide)

/-- C8: the rule 1 lookahead buffer (`rest.takeWhile isBC`) holds only
blank/comment lines, hence never the marker `  },`; so whenever the
lookahead reaches a `  {` line the `has_close` guard is false and the
`  },` insertion is always performed. -/
theorem lookahead_buffer_invariant :
    ∀ (line : List Char) (rest : List (List Char)), trigger1 line = true →
      (rest.takeWhile isBC).all isBC = true ∧
      (rest.takeWhile isBC).any (fun l => l == outerClose) = false ∧
      ((rest.dropWhile isBC).head? = some arrayOpen →
        fixGo (line :: rest) =
          line :: outerClose :: (rest.takeWhile isBC ++ fixGo (rest.dropWhile isBC))) := by
  intro line rest h1
  have hall := all_isBC_takeWhile rest
  have hany := bc_run_has_no_marker _ hall
  exact ⟨hall, hany, fun h2 => fixGo_found_ins line rest h1 h2 hany⟩

/-- Witness for C8 at a concrete trigger line and lookahead run. -/
theorem lookahead_buffer_invariant_witness :
    (List.takeWhile isBC ["".data, arrayOpen]).all isBC = true ∧
    (List.takeWhile isBC ["".data, arrayOpen]).any (fun l => l == outerClose) = false ∧
    fixGo (innerClose :: ["".data, arrayOpen]) =
      innerClose :: outerClose ::
        (List.takeWhile isBC ["".data, arrayOpen] ++
          fixGo (List.dropWhile isBC ["".data, arrayOpen])) :=
  have h := lookahead_buffer_invariant innerClose ["".data, arrayOpen] (by decide)
  ⟨h.1, h.2.1, h.2.2 (by decide)⟩

/-- C9: the scan is total and terminates within one iteration per line:
with any iteration budget of at least the line count, the fueled scan
finishes (never exhausts its fuel) and computes `fixGo` — each loop
iteration strictly advances the cursor, and the suffix embedding makes
every line access an in-bounds head access by construction. -/
theorem scan_total_with_linear_fuel :
    ∀ (fuel : Nat) (ls : List (List Char)), ls.length ≤ fuel →
      fixFuel fuel ls = some (fixGo ls) :=
  fixFuel_complete

/-- Witness for C9 on a three-line input with fuel 3. -/
theorem scan_total_with_linear_fuel_witness :
    fixFuel 3 [innerClose, "".data, arrayOpen] =
      some (fixGo [innerClose, "".data, arrayOpen]) :=
  scan_total_with_linear_fuel 3 [innerClose, "".data, arrayOpen] (by decide)

/-- C10: the transformation is a pure function of the file content: equal
input contents give equal written contents, and the printed message is
always exactly `Fixed file`. -/
theorem patcher_deterministic :
    ∀ content₁ content₂ : String, content₁ = content₂ →
      runFix content₁ = runFix content₂ ∧ (runFix content₁).2 = "Fixed file" := by
  intro content₁ content₂ h
  subst h
  exact ⟨rfl, rfl⟩

/-- Witness for C10 at a concrete content. -/
theorem patcher_deterministic_witness :
    runFix "x" = runFix "x" ∧ (runFix "x").2 = "Fixed file" :=
  patcher_deterministic "x" "x" rfl
